import Mathlib

/-!
Verification of the `Chunker` repository (`src/lib.rs`).

Shallow embedding conventions:
* Rust `usize` is modelled as `Nat`; `u8` values are naturals below 256.
* Subtraction follows debug-mode Rust: an underflowing subtraction is a
  program abort.  A function that may abort returns `Option`, with `none`
  standing for the abort (panic); `Chunk.get_pointer` and `Chunk.chunk`
  are of this shape.  `ChunkStatus.to_received` likewise returns `none`
  for its explicit panic branch.
* `core::mem::size_of::<usize>()` is the 64-bit target value `8`,
  written `metaSize` below.
* Byte slices are `List Nat`; `&data[a..b]` is `(data.drop a).take (b - a)`
  and `&data[a..]` is `data.drop a` (both guarded exactly as the source
  guards them).
* `Result<T, ChunkError>` is `Except ChunkError T`; mutation of `&mut self`
  is explicit state passing, so a Rust method returning `Result<u8, _>`
  becomes a function returning the pair of the result and the new state.
* The `println!` diagnostic in `increase_retry` has no observable effect on
  the values under study and is dropped.
-/

/-- Models `core::mem::size_of::<usize>()` on the 64-bit target: 8 bytes. -/
def metaSize : Nat := 8

/-- Models `enum ChunkSessionStatus { Sended, Received }`. -/
inductive ChunkSessionStatus
  | Sended
  | Received
deriving DecidableEq

/-- Models `struct ChunkStatus { number, session, retry }`; `retry` is a
`u8`, kept below 256 by every operation of the API. -/
structure ChunkStatus where
  number : Option Nat
  session : Option ChunkSessionStatus
  retry : Nat
deriving DecidableEq

/-- Models `enum ChunkError { InvalidMetaSize, OverflowRetryCounter }`. -/
inductive ChunkError
  | InvalidMetaSize
  | OverflowRetryCounter
deriving DecidableEq

/-- Models `ChunkStatus::new()`: all-default fields. -/
def ChunkStatus.new : ChunkStatus :=
  { number := none, session := none, retry := 0 }

/-- Models `ChunkStatus::to_send`: unconditionally overwrite all fields. -/
def ChunkStatus.to_send (_s : ChunkStatus) (number : Nat) : ChunkStatus :=
  { number := some number, session := some .Sended, retry := 0 }

/-- Models `ChunkStatus::to_received`: panics (here `none`) when the stored
number differs from the acknowledged one, otherwise sets the session to
`Received` and resets the retry counter. -/
def ChunkStatus.to_received (s : ChunkStatus) (number : Nat) :
    Option ChunkStatus :=
  if s.number ≠ some number then
    none
  else
    some { s with session := some .Received, retry := 0 }

/-- Models `ChunkStatus::increase_retry`: error (without state change) when
`retry` is already `u8::MAX = 255`, otherwise increment and return the new
value together with the updated state. -/
def ChunkStatus.increase_retry (s : ChunkStatus) :
    Except ChunkError Nat × ChunkStatus :=
  if s.retry = 255 then
    (.error .OverflowRetryCounter, s)
  else
    (.ok (s.retry + 1), { s with retry := s.retry + 1 })

/-- Result and post-state of the `n`-th consecutive call to
`increase_retry`, starting from `s` (for `n = 0`, a dummy `ok` of the
current counter and the unchanged state). -/
def ChunkStatus.retryCalls : Nat → ChunkStatus → Except ChunkError Nat × ChunkStatus
  | 0, s => (.ok s.retry, s)
  | n + 1, s => (ChunkStatus.retryCalls n s).2.increase_retry

/-- Models `struct Chunk<'a>`: the borrowed payload is a `List Nat` of
byte values. -/
structure Chunk where
  counter : Nat
  topic : Nat
  data : List Nat
  max_chunk_size : Nat
  meta_size : Nat
  status : ChunkStatus
deriving DecidableEq

/-- Little-endian byte encoding of `n` on `w` bytes, as produced by Rust's
`usize::to_le_bytes` (for `w = metaSize`). -/
def toLeBytes : Nat → Nat → List Nat
  | 0, _ => []
  | w + 1, n => n % 256 :: toLeBytes w (n / 256)

/-- Little-endian byte decoding, as performed by Rust's
`usize::from_le_bytes` on the collected byte array. -/
def fromLeBytes : List Nat → Nat
  | [] => 0
  | b :: bs => b + 256 * fromLeBytes bs

/-- Models `Chunk::new(max_chunk_size, topic, data)`. -/
def Chunk.new (max_chunk_size : Nat) (topic : Nat) (data : List Nat) : Chunk :=
  { counter := 0
    topic := topic
    data := data
    max_chunk_size := max_chunk_size
    meta_size := metaSize
    status := ChunkStatus.new }

/-- Models `Chunk::header`: one topic byte followed by the payload length
in little-endian over `metaSize` bytes. -/
def Chunk.header (c : Chunk) : List Nat :=
  c.topic :: toLeBytes metaSize c.data.length

/-- Models `Chunk::meta`: errors when the input is shorter than
`size_of::<usize>()`, otherwise decodes the first `metaSize` bytes as a
little-endian integer. -/
def Chunk.meta (resp : List Nat) : Except ChunkError Nat :=
  if resp.length < metaSize then
    .error .InvalidMetaSize
  else
    .ok (fromLeBytes (resp.take metaSize))

/-- Models `Chunk::get_pointer`, the source expression
`counter * self.max_chunk_size - self.meta_size * counter - self.header().len()`
with debug-mode checked subtraction: `none` is the underflow abort. -/
def Chunk.get_pointer (c : Chunk) (counter : Nat) : Option Nat :=
  if counter = 0 then
    some 0
  else if c.meta_size * counter ≤ counter * c.max_chunk_size then
    if c.header.length ≤ counter * c.max_chunk_size - c.meta_size * counter then
      some (counter * c.max_chunk_size - c.meta_size * counter - c.header.length)
    else
      none
  else
    none

/-- Models `Chunk::start`: the pointer of the explicit counter, or of the
cursor when no counter is given. -/
def Chunk.start (c : Chunk) (counter : Option Nat) : Option Nat :=
  c.get_pointer (counter.getD c.counter)

/-- Models `Chunk::end` (a reserved word in Lean, hence `stop`). -/
def Chunk.stop (c : Chunk) (counter : Option Nat) : Option Nat :=
  c.get_pointer (counter.getD c.counter + 1)

/-- Models `Chunk::chunk`.  Outer `none` is a panic (pointer underflow, or
a reversed slice `start > end`); `some none` is the source's `None`
("no more chunks"); `some (some (slice, index))` is a produced chunk. -/
def Chunk.chunk (c : Chunk) (counter : Option Nat) :
    Option (Option (List Nat × Nat)) :=
  match c.start counter with
  | none => none
  | some s =>
    if s > c.data.length then
      some none
    else
      match c.stop counter with
      | none => none
      | some e =>
        if e > c.data.length then
          some (some (c.data.drop s, counter.getD c.counter))
        else if e < s then
          none
        else
          some (some ((c.data.drop s).take (e - s), counter.getD c.counter))

/-- Models `Chunk::inc_counter`. -/
def Chunk.inc_counter (c : Chunk) : Chunk :=
  { c with counter := c.counter + 1 }

/-- Models `<Chunk as Iterator>::next`: chunk at the cursor, advancing the
cursor on success.  Outer `none` is a panic, `some none` is iterator
exhaustion, and `some (some (item, c))` yields `item` with new state `c`. -/
def Chunk.next (c : Chunk) : Option (Option ((List Nat × Nat) × Chunk)) :=
  match c.chunk (some c.counter) with
  | none => none
  | some none => some none
  | some (some ch) => some (some (ch, c.inc_counter))

/-- Runs the iterator to exhaustion, collecting the produced
`(data, index)` pairs in production order.  `none` means the iteration
panicked or the fuel ran out before exhaustion was signalled; `some l`
means the iterator yielded exactly the items of `l` and then reported
no more chunks. -/
def Chunk.produce : Nat → Chunk → Option (List (List Nat × Nat))
  | 0, _ => none
  | fuel + 1, c =>
    match c.next with
    | none => none
    | some none => some []
    | some (some (ch, c2)) => (Chunk.produce fuel c2).map (ch :: ·)

deriving instance DecidableEq for Except

/-- Value of `get_pointer` when no underflow occurs: the spec's formula,
`0` at index `0` and `k * M - metaSize * k - (metaSize + 1)` at `k > 0`. -/
def ptrVal (M k : Nat) : Nat :=
  if k = 0 then 0 else k * M - metaSize * k - (metaSize + 1)

/-- Chunker in mid-iteration: a fresh chunker whose cursor has been
advanced to `k`. -/
def mkAt (M t : Nat) (data : List Nat) (k : Nat) : Chunk :=
  { Chunk.new M t data with counter := k }


set_option maxRecDepth 4000 in
/-- C5, claim as stated is false: starting from a fresh status, the 255th
(`u8::MAX`-th) consecutive call to `increase_retry` still succeeds with
`Ok(255)`; it is not the overflow error the claim predicts for the final
call. -/
theorem C5_counterexample :
    (ChunkStatus.retryCalls 255 ChunkStatus.new).1 = .ok 255 ∧
    (Except.ok 255 : Except ChunkError Nat) ≠ .error .OverflowRetryCounter := by
  exact ⟨by decide, by decide⟩

set_option maxRecDepth 4000 in
/-- C5 (amended): a single `increase_retry` increments and returns the new
value when `retry < 255` and fails with `OverflowRetryCounter` without
state change when `retry = 255`; from a fresh status it takes
`u8::MAX + 1 = 256` consecutive calls for the final call to fail, and that
failing call leaves `retry` at 255, unchanged. -/
theorem C5_increase_retry (s : ChunkStatus) :
    (s.retry < 255 →
      s.increase_retry = (.ok (s.retry + 1), { s with retry := s.retry + 1 })) ∧
    (s.retry = 255 →
      s.increase_retry = (.error .OverflowRetryCounter, s)) ∧
    ChunkStatus.retryCalls 256 ChunkStatus.new =
      (.error .OverflowRetryCounter, { ChunkStatus.new with retry := 255 }) := by
  refine ⟨fun h => ?_, fun h => ?_, by decide⟩
  · unfold ChunkStatus.increase_retry
    rw [if_neg (by omega)]
  · unfold ChunkStatus.increase_retry
    rw [if_pos h]

/-- C5 witness: both single-call branches at concrete states. -/
theorem C5_witness :
    ChunkStatus.increase_retry ⟨none, none, 7⟩ = (.ok 8, ⟨none, none, 8⟩) ∧
    ChunkStatus.increase_retry ⟨none, none, 255⟩ =
      (.error .OverflowRetryCounter, ⟨none, none, 255⟩) :=
  ⟨(C5_increase_retry ⟨none, none, 7⟩).1 (by decide),
   (C5_increase_retry ⟨none, none, 255⟩).2.1 rfl⟩

/-- C8: whenever the tracked number is not `Some m` (the initial unset
state included), `to_received m` aborts the process — modelled as `none`,
which is not a value of the recoverable `ChunkError` result channel at
all, hence distinguishable from `InvalidMetaSize` and
`OverflowRetryCounter`. -/
theorem C8_to_received_mismatch_aborts (s : ChunkStatus) (m : Nat)
    (h : s.number ≠ some m) : s.to_received m = none := by
  unfold ChunkStatus.to_received
  rw [if_pos h]

/-- C8 witness: acknowledging chunk 3 on a fresh (unset) status aborts. -/
theorem C8_witness : ChunkStatus.to_received ChunkStatus.new 3 = none :=
  C8_to_received_mismatch_aborts ChunkStatus.new 3 (by decide)

/-- C9: `to_send n` always succeeds and overwrites any prior state with
`number = Some n`, `session = Sent`, `retry = 0`; and `to_received n` with
`number = Some n` succeeds, leaving `session = Received` and `retry = 0`. -/
theorem C9_to_send_to_received (s : ChunkStatus) (n : Nat) :
    s.to_send n = ⟨some n, some .Sended, 0⟩ ∧
    (s.number = some n →
      s.to_received n = some ⟨some n, some .Received, 0⟩) := by
  refine ⟨rfl, fun h => ?_⟩
  rcases s with ⟨num, ses, r⟩
  simp only at h
  subst h
  simp [ChunkStatus.to_received]

/-- C9 witness: a status previously sent for chunk 5, with a nonzero retry
count, transitions through `to_send` and `to_received` as stated. -/
theorem C9_witness :
    ChunkStatus.to_send ⟨some 5, some .Sended, 3⟩ 5 = ⟨some 5, some .Sended, 0⟩ ∧
    ChunkStatus.to_received ⟨some 5, some .Sended, 3⟩ 5 =
      some ⟨some 5, some .Received, 0⟩ :=
  ⟨(C9_to_send_to_received ⟨some 5, some .Sended, 3⟩ 5).1,
   (C9_to_send_to_received ⟨some 5, some .Sended, 3⟩ 5).2 rfl⟩

/-- Length of the little-endian encoding is the requested width. -/
theorem toLeBytes_length : ∀ w n : Nat, (toLeBytes w n).length = w
  | 0, _ => rfl
  | w + 1, n => by simp [toLeBytes, toLeBytes_length w]

/-- Decoding a `w`-byte little-endian encoding recovers the value modulo
`2 ^ (8 * w)`. -/
theorem fromLeBytes_toLeBytes : ∀ w n : Nat,
    fromLeBytes (toLeBytes w n) = n % 2 ^ (8 * w)
  | 0, n => by simp [toLeBytes, fromLeBytes]; omega
  | w + 1, n => by
    have h : 2 ^ (8 * (w + 1)) = 256 * 2 ^ (8 * w) := by
      rw [Nat.mul_succ, pow_add, mul_comm]
      norm_num
    rw [toLeBytes, fromLeBytes, fromLeBytes_toLeBytes w (n / 256), h,
      Nat.mod_mul]

/-- Closed form of the little-endian decoder as a positional sum. -/
theorem fromLeBytes_eq_sum : ∀ l : List Nat,
    fromLeBytes l = ∑ i ∈ Finset.range l.length, l.getD i 0 * 256 ^ i
  | [] => by simp [fromLeBytes]
  | b :: bs => by
    rw [fromLeBytes, fromLeBytes_eq_sum bs, List.length_cons,
      Finset.sum_range_succ', Finset.mul_sum]
    simp only [List.getD_cons_succ, List.getD_cons_zero, pow_zero, mul_one]
    rw [add_comm]
    congr 1
    refine Finset.sum_congr rfl fun i _ => ?_
    ring

/-- Taking a prefix does not change the entries before the cut. -/
theorem getD_take_of_lt : ∀ (l : List Nat) (k i : Nat), i < k →
    (l.take k).getD i 0 = l.getD i 0
  | [], _, _, _ => by simp
  | _ :: _, 0, i, h => absurd h (Nat.not_lt_zero i)
  | a :: l, k + 1, 0, _ => rfl
  | a :: l, k + 1, i + 1, h => by
    simpa using getD_take_of_lt l k i (Nat.lt_of_succ_lt_succ h)

/-- C6: the header is `metaSize + 1` bytes, its first byte is the topic,
and its remaining `metaSize` bytes decode through `meta` to the exact
payload length (payload lengths are `usize` values, hence below
`2 ^ (8 * metaSize)`). -/
theorem C6_header (M t : Nat) (data : List Nat)
    (hL : data.length < 2 ^ (8 * metaSize)) :
    (Chunk.new M t data).header.length = metaSize + 1 ∧
    (Chunk.new M t data).header.head? = some t ∧
    ((Chunk.new M t data).header.drop 1).length = metaSize ∧
    Chunk.meta ((Chunk.new M t data).header.drop 1) = .ok data.length := by
  refine ⟨by simp [Chunk.header, Chunk.new, toLeBytes_length], rfl,
    by simp [Chunk.header, Chunk.new, toLeBytes_length], ?_⟩
  have hdrop : (Chunk.new M t data).header.drop 1
      = toLeBytes metaSize data.length := rfl
  rw [hdrop, Chunk.meta, if_neg (by simp [toLeBytes_length]),
    List.take_of_length_le (le_of_eq (toLeBytes_length _ _)),
    fromLeBytes_toLeBytes, Nat.mod_eq_of_lt hL]

set_option maxRecDepth 8000 in
/-- C6 witness: the spec's concrete scenario, a 1000-byte payload with
topic `0x10`, whose header is `[0x10, 0xE8, 0x03, 0, 0, 0, 0, 0, 0]`. -/
theorem C6_witness :
    ((Chunk.new 250 16 (List.replicate 1000 0)).header.length = metaSize + 1 ∧
      (Chunk.new 250 16 (List.replicate 1000 0)).header.head? = some 16 ∧
      ((Chunk.new 250 16 (List.replicate 1000 0)).header.drop 1).length = metaSize ∧
      Chunk.meta ((Chunk.new 250 16 (List.replicate 1000 0)).header.drop 1) =
        .ok (List.replicate 1000 0).length) ∧
    (Chunk.new 250 16 (List.replicate 1000 0)).header =
      [16, 232, 3, 0, 0, 0, 0, 0, 0] :=
  ⟨C6_header 250 16 (List.replicate 1000 0) (by norm_num [metaSize]),
   by decide⟩

/-- C7: `meta` fails with `InvalidMetaSize` exactly when the input is
shorter than `metaSize` bytes; otherwise it returns the little-endian
value of the first `metaSize` bytes (the positional sum of the bytes with
weights `256 ^ i`). -/
theorem C7_meta (b : List Nat) :
    (Chunk.meta b = .error .InvalidMetaSize ↔ b.length < metaSize) ∧
    (metaSize ≤ b.length →
      Chunk.meta b = .ok (∑ i ∈ Finset.range metaSize, b.getD i 0 * 256 ^ i)) := by
  constructor
  · unfold Chunk.meta
    by_cases h : b.length < metaSize
    · simp [h]
    · simp [h]
  · intro h
    rw [Chunk.meta, if_neg (by omega), fromLeBytes_eq_sum]
    have hlen : (b.take metaSize).length = metaSize := by
      simp [List.length_take]
      omega
    rw [hlen]
    congr 1
    refine Finset.sum_congr rfl fun i hi => ?_
    rw [getD_take_of_lt b metaSize i (Finset.mem_range.mp hi)]

/-- C7 witness: a 9-byte input decodes its first 8 bytes, and the
error-iff characterization holds for it. -/
theorem C7_witness :
    (Chunk.meta [1, 2, 3, 4, 5, 6, 7, 8, 9] = .error .InvalidMetaSize ↔
      ([1, 2, 3, 4, 5, 6, 7, 8, 9] : List Nat).length < metaSize) ∧
    Chunk.meta [1, 2, 3, 4, 5, 6, 7, 8, 9] =
      .ok (∑ i ∈ Finset.range metaSize,
        ([1, 2, 3, 4, 5, 6, 7, 8, 9] : List Nat).getD i 0 * 256 ^ i) :=
  ⟨(C7_meta [1, 2, 3, 4, 5, 6, 7, 8, 9]).1,
   (C7_meta [1, 2, 3, 4, 5, 6, 7, 8, 9]).2 (by decide)⟩

theorem header_length (c : Chunk) : c.header.length = metaSize + 1 := by
  simp [Chunk.header, toLeBytes_length]

theorem mkAt_zero (M t : Nat) (data : List Nat) :
    mkAt M t data 0 = Chunk.new M t data := rfl

theorem inc_counter_mkAt (M t : Nat) (data : List Nat) (k : Nat) :
    (mkAt M t data k).inc_counter = mkAt M t data (k + 1) := rfl

/-- Definedness bound: under `M ≥ 2 * metaSize + 1` no pointer subtraction
underflows at any positive index. -/
theorem ptr_defined_of_hM (M k : Nat) (hM : 2 * metaSize + 1 ≤ M)
    (hk : k ≠ 0) : metaSize * k + (metaSize + 1) ≤ k * M := by
  have h1 : k * (2 * metaSize + 1) ≤ k * M := Nat.mul_le_mul_left k hM
  have h2 : 1 ≤ k := Nat.pos_of_ne_zero hk
  simp only [metaSize] at *
  omega

/-- Evaluation of `get_pointer` in the absence of underflow. -/
theorem get_pointer_mkAt (M t : Nat) (data : List Nat) (j k : Nat)
    (hdef : k ≠ 0 → metaSize * k + (metaSize + 1) ≤ k * M) :
    (mkAt M t data j).get_pointer k = some (ptrVal M k) := by
  have hms : (mkAt M t data j).meta_size = metaSize := rfl
  have hmx : (mkAt M t data j).max_chunk_size = M := rfl
  rw [Chunk.get_pointer, hms, hmx, header_length]
  by_cases h0 : k = 0
  · simp [h0, ptrVal]
  · have h := hdef h0
    rw [if_neg h0, if_pos (by omega), if_pos (by omega), ptrVal, if_neg h0]

/-- Step relation of the pointer formula at positive indices. -/
theorem ptrVal_succ (M k : Nat) (hM : 2 * metaSize + 1 ≤ M) (hk : 1 ≤ k) :
    ptrVal M (k + 1) = ptrVal M k + (M - metaSize) := by
  have h1 := ptr_defined_of_hM M k hM (by omega)
  have h2 : (k + 1) * M = k * M + M := by ring
  have h3 : metaSize * (k + 1) = metaSize * k + metaSize := by ring
  rw [ptrVal, ptrVal, if_neg (by omega : ¬ k + 1 = 0), if_neg (by omega : ¬ k = 0)]
  simp only [metaSize] at *
  omega

theorem ptrVal_one (M : Nat) : ptrVal M 1 = M - metaSize - (metaSize + 1) := by
  simp [ptrVal]

/-- Evaluation of `chunk` at an explicit index whose two surrounding
pointers are defined: the produced slice is `data[s..].take (e - s)` when
`s` is in range, and the no-more-chunks signal otherwise. -/
theorem chunk_eq_of (c : Chunk) (k s e : Nat)
    (hs : c.get_pointer k = some s) (he : c.get_pointer (k + 1) = some e)
    (hse : s ≤ e) :
    c.chunk (some k) =
      if c.data.length < s then some none
      else some (some ((c.data.drop s).take (e - s), k)) := by
  rw [Chunk.chunk]
  simp only [Chunk.start, Chunk.stop, Option.getD_some, hs, he]
  by_cases h : c.data.length < s
  · simp [h]
  · simp only [gt_iff_lt, h, if_neg h, if_false]
    by_cases h2 : c.data.length < e
    · rw [if_pos h2]
      have h3 : (c.data.drop s).length ≤ e - s := by
        rw [List.length_drop]
        omega
      rw [List.take_of_length_le h3]
    · rw [if_neg h2, if_neg (by omega : ¬ e < s)]

theorem produce_succ (fuel : Nat) (c : Chunk) :
    Chunk.produce (fuel + 1) c =
      match c.next with
      | none => none
      | some none => some []
      | some (some (ch, c2)) => (Chunk.produce fuel c2).map (ch :: ·) := rfl

theorem next_of_chunk_none (c : Chunk)
    (h : c.chunk (some c.counter) = some none) : c.next = some none := by
  rw [Chunk.next, h]

theorem next_of_chunk_some (c : Chunk) (ch : List Nat × Nat)
    (h : c.chunk (some c.counter) = some (some ch)) :
    c.next = some (some (ch, c.inc_counter)) := by
  rw [Chunk.next, h]

theorem produce_of_next_none (fuel : Nat) (c : Chunk)
    (h : c.next = some none) : Chunk.produce (fuel + 1) c = some [] := by
  rw [produce_succ, h]

theorem produce_of_next_some (fuel : Nat) (c c2 : Chunk) (ch : List Nat × Nat)
    (h : c.next = some (some (ch, c2))) :
    Chunk.produce (fuel + 1) c = (Chunk.produce fuel c2).map (ch :: ·) := by
  rw [produce_succ, h]

/-- Fueled run of the iterator from cursor position `k ≥ 1` (for a
well-configured chunker): it terminates, its chunks concatenate to exactly
the payload suffix starting at `ptrVal M k`, its indices are the
consecutive naturals from `k`, and it yields at most
`L + 1 - ptrVal M k` chunks (none at all when the start is out of range). -/
theorem produce_from (M t : Nat) (data : List Nat)
    (hM : 2 * metaSize + 1 ≤ M) :
    ∀ fuel k : Nat, 1 ≤ k → data.length + 1 - ptrVal M k < fuel →
    ∃ l, Chunk.produce fuel (mkAt M t data k) = some l ∧
      (l.map Prod.fst).flatten = data.drop (ptrVal M k) ∧
      l.map Prod.snd = List.range' k l.length ∧
      l.length ≤ data.length + 1 - ptrVal M k ∧
      (data.length < ptrVal M k → l = []) := by
  intro fuel
  induction fuel with
  | zero => intro k hk hf; omega
  | succ f ih =>
    intro k hk hf
    have hs := get_pointer_mkAt M t data k k (fun h0 => ptr_defined_of_hM M k hM h0)
    have he := get_pointer_mkAt M t data k (k + 1)
      (fun h0 => ptr_defined_of_hM M (k + 1) hM h0)
    have hstep : ptrVal M (k + 1) = ptrVal M k + (M - metaSize) :=
      ptrVal_succ M k hM hk
    have hMm : metaSize + 1 ≤ M - metaSize := by
      simp only [metaSize] at *
      omega
    have hse : ptrVal M k ≤ ptrVal M (k + 1) := by omega
    have hch := chunk_eq_of (mkAt M t data k) k (ptrVal M k) (ptrVal M (k + 1))
      hs he hse
    have hdata : (mkAt M t data k).data = data := rfl
    have hcnt : (mkAt M t data k).counter = k := rfl
    rw [hdata] at hch
    by_cases hout : data.length < ptrVal M k
    · rw [if_pos hout] at hch
      refine ⟨[], produce_of_next_none f _ (next_of_chunk_none _ hch), ?_, rfl,
        by simp, fun _ => rfl⟩
      simp [List.drop_eq_nil_of_le (by omega : data.length ≤ ptrVal M k)]
    · rw [if_neg hout] at hch
      have hnext := next_of_chunk_some _ _ hch
      rw [inc_counter_mkAt] at hnext
      obtain ⟨l2, hl2, hjoin2, hsnd2, hlen2, hnil2⟩ :=
        ih (k + 1) (by omega) (by omega)
      refine ⟨((data.drop (ptrVal M k)).take (ptrVal M (k + 1) - ptrVal M k), k) :: l2,
        ?_, ?_, ?_, ?_, fun hcon => absurd hcon hout⟩
      · rw [produce_of_next_some f _ _ _ hnext, hl2]
        rfl
      · have hdd : (data.drop (ptrVal M k)).drop (ptrVal M (k + 1) - ptrVal M k)
            = data.drop (ptrVal M (k + 1)) := by
          rw [List.drop_drop]
          congr 1
          omega
        calc ((((data.drop (ptrVal M k)).take (ptrVal M (k + 1) - ptrVal M k), k)
                :: l2).map Prod.fst).flatten
            = (data.drop (ptrVal M k)).take (ptrVal M (k + 1) - ptrVal M k)
              ++ (l2.map Prod.fst).flatten := by simp
          _ = (data.drop (ptrVal M k)).take (ptrVal M (k + 1) - ptrVal M k)
              ++ (data.drop (ptrVal M k)).drop (ptrVal M (k + 1) - ptrVal M k) := by
              rw [hjoin2, hdd]
          _ = data.drop (ptrVal M k) := List.take_append_drop _ _
      · simp only [List.map_cons, List.length_cons, hsnd2]
        rfl
      · by_cases hlast : data.length < ptrVal M (k + 1)
        · have : l2 = [] := hnil2 hlast
          subst this
          simp only [List.length_cons, List.length_nil]
          omega
        · simp only [List.length_cons]
          omega

/-- Monotonicity of the pointer formula for a well-configured chunker. -/
theorem ptrVal_le_succ (M k : Nat) (hM : 2 * metaSize + 1 ≤ M) :
    ptrVal M k ≤ ptrVal M (k + 1) := by
  cases k with
  | zero => simp [ptrVal]
  | succ n =>
    rw [ptrVal_succ M (n + 1) hM (by omega)]
    omega

/-- Full run of the iterator on a fresh chunker (well-configured:
`M ≥ 2 * metaSize + 1`): fuel `L + 3` suffices to reach exhaustion, the
chunks concatenate to the whole payload, the yielded indices are
`0, 1, 2, …` in order, and at most `L + 2` chunks are yielded. -/
theorem produce_new (M t : Nat) (data : List Nat)
    (hM : 2 * metaSize + 1 ≤ M) :
    ∃ l, Chunk.produce (data.length + 3) (Chunk.new M t data) = some l ∧
      (l.map Prod.fst).flatten = data ∧
      l.map Prod.snd = List.range' 0 l.length ∧
      l.length ≤ data.length + 2 := by
  rw [← mkAt_zero M t data]
  have hs := get_pointer_mkAt M t data 0 0 (fun h0 => absurd rfl h0)
  have he := get_pointer_mkAt M t data 0 1
    (fun _ => ptr_defined_of_hM M 1 hM one_ne_zero)
  have hse : ptrVal M 0 ≤ ptrVal M 1 := ptrVal_le_succ M 0 hM
  have hch := chunk_eq_of (mkAt M t data 0) 0 (ptrVal M 0) (ptrVal M 1) hs he hse
  have hdata : (mkAt M t data 0).data = data := rfl
  rw [hdata] at hch
  have hp0 : ptrVal M 0 = 0 := rfl
  rw [hp0] at hch
  rw [if_neg (by omega)] at hch
  have hnext := next_of_chunk_some _ _ hch
  rw [inc_counter_mkAt] at hnext
  obtain ⟨l2, hl2, hjoin2, hsnd2, hlen2, hnil2⟩ :=
    produce_from M t data hM (data.length + 2) 1 le_rfl (by omega)
  refine ⟨((data.drop 0).take (ptrVal M 1 - 0), 0) :: l2, ?_, ?_, ?_, ?_⟩
  · show Chunk.produce (data.length + 2 + 1) (mkAt M t data 0) = _
    rw [produce_of_next_some (data.length + 2) _ _ _ hnext, hl2]
    rfl
  · simp only [List.map_cons, List.flatten_cons, List.drop_zero, Nat.sub_zero,
      hjoin2]
    exact List.take_append_drop _ _
  · simp only [List.map_cons, List.length_cons, hsnd2]
    rfl
  · simp only [List.length_cons]
    omega

/-- C1, claim as stated is false for arbitrary `max_frame_size`: with
`max_frame_size = 10` (which even exceeds the header size 9) the very
first `next` call aborts on pointer underflow, so the run produces no
chunk list at all, let alone one that concatenates to the payload. -/
theorem C1_counterexample :
    ¬ ∃ l, Chunk.produce ((List.replicate 5 0).length + 3)
        (Chunk.new 10 16 (List.replicate 5 0)) = some l ∧
      (l.map Prod.fst).flatten = List.replicate 5 0 := by
  rintro ⟨l, h1, -⟩
  have h0 : Chunk.produce ((List.replicate 5 0).length + 3)
      (Chunk.new 10 16 (List.replicate 5 0)) = none := rfl
  rw [h0] at h1
  exact Option.noConfusion h1

/-- C1 (amended): for every payload and every `max_frame_size M` large
enough for the pointer arithmetic never to underflow
(`M ≥ 2 * metaSize + 1`), the sequential iteration runs to exhaustion and
the concatenation, in production order, of the data slices of all
produced chunks is exactly the original payload. -/
theorem C1_roundtrip (M t : Nat) (data : List Nat)
    (hM : 2 * metaSize + 1 ≤ M) :
    ∃ l, Chunk.produce (data.length + 3) (Chunk.new M t data) = some l ∧
      (l.map Prod.fst).flatten = data := by
  obtain ⟨l, h1, h2, -, -⟩ := produce_new M t data hM
  exact ⟨l, h1, h2⟩

/-- C1 witness: a 20-byte payload with the smallest well-configured frame
size, `M = 17`. -/
theorem C1_witness :
    ∃ l, Chunk.produce ((List.replicate 20 7).length + 3)
        (Chunk.new 17 16 (List.replicate 20 7)) = some l ∧
      (l.map Prod.fst).flatten = List.replicate 20 7 :=
  C1_roundtrip 17 16 (List.replicate 20 7) (by decide)

set_option maxRecDepth 8000 in
/-- C2, claim as stated is false: in the spec's own concrete scenario
(1000-byte payload, `max_frame_size = 250`, `metaSize = 8`) the first
chunk's data slice has 233 bytes, not
`min (M - header_size) L = min 241 1000 = 241`: the source also charges
the `meta_size` against the first frame. -/
theorem C2_counterexample :
    (Chunk.new 250 16 (List.replicate 1000 0)).chunk (some 0) =
      some (some (List.replicate 233 0, 0)) ∧
    (List.replicate 233 0).length ≠
      min (250 - (metaSize + 1)) (List.replicate 1000 0).length := by
  constructor
  · decide
  · decide

/-- C2 (amended): for a well-configured chunker
(`M ≥ 2 * metaSize + 1`), the data slice of chunk 0 has length
`min (M - metaSize - (metaSize + 1)) L` — both the one-time header and the
rolling `metaSize` field are charged against the first frame — which is
233, not 241, in the spec's concrete scenario. -/
theorem C2_first_chunk (M t : Nat) (data : List Nat)
    (hM : 2 * metaSize + 1 ≤ M) :
    ∃ piece, (Chunk.new M t data).chunk (some 0) = some (some (piece, 0)) ∧
      piece.length = min (M - metaSize - (metaSize + 1)) data.length := by
  rw [← mkAt_zero M t data]
  have hs := get_pointer_mkAt M t data 0 0 (fun h0 => absurd rfl h0)
  have he := get_pointer_mkAt M t data 0 1
    (fun _ => ptr_defined_of_hM M 1 hM one_ne_zero)
  have hch := chunk_eq_of (mkAt M t data 0) 0 (ptrVal M 0) (ptrVal M 1) hs he
    (ptrVal_le_succ M 0 hM)
  have hdata : (mkAt M t data 0).data = data := rfl
  rw [hdata] at hch
  have hp0 : ptrVal M 0 = 0 := rfl
  rw [hp0, if_neg (by omega)] at hch
  refine ⟨(data.drop 0).take (ptrVal M 1 - 0), hch, ?_⟩
  simp only [List.drop_zero, Nat.sub_zero, List.length_take, ptrVal_one]

set_option maxRecDepth 8000 in
/-- C2 witness: the spec's concrete scenario, showing the 233-byte first
chunk. -/
theorem C2_witness :
    (∃ piece, (Chunk.new 250 16 (List.replicate 1000 0)).chunk (some 0) =
        some (some (piece, 0)) ∧
      piece.length = min (250 - metaSize - (metaSize + 1))
        (List.replicate 1000 0).length) ∧
    min (250 - metaSize - (metaSize + 1)) (List.replicate 1000 0).length = 233 :=
  ⟨C2_first_chunk 250 16 (List.replicate 1000 0) (by decide), by decide⟩

/-- C3: `get_pointer` maps index 0 to offset 0 and any index `i > 0` at
which the subtraction does not underflow to
`i * max_frame_size - metaSize * i - (metaSize + 1)`; consequently the
chunk at such an index `i` whose start is in range has data length
`min (max_frame_size - metaSize) (remaining bytes)`. -/
theorem C3_pointer_formula (M t : Nat) (data : List Nat) (i : Nat)
    (hi : 1 ≤ i) (hdef : metaSize * i + (metaSize + 1) ≤ i * M) :
    (Chunk.new M t data).get_pointer 0 = some 0 ∧
    (Chunk.new M t data).get_pointer i =
      some (i * M - metaSize * i - (metaSize + 1)) ∧
    (i * M - metaSize * i - (metaSize + 1) ≤ data.length →
      ∃ piece, (Chunk.new M t data).chunk (some i) = some (some (piece, i)) ∧
        piece.length = min (M - metaSize)
          (data.length - (i * M - metaSize * i - (metaSize + 1)))) := by
  rw [← mkAt_zero M t data]
  have hiM : metaSize + 1 ≤ M := by
    by_contra hcon
    push_neg at hcon
    have h1 : i * M ≤ i * metaSize := Nat.mul_le_mul_left i (by omega)
    have h2 : i * metaSize = metaSize * i := Nat.mul_comm i metaSize
    omega
  have hexp1 : (i + 1) * M = i * M + M := by ring
  have hexp2 : metaSize * (i + 1) = metaSize * i + metaSize := by ring
  have hdef2 : metaSize * (i + 1) + (metaSize + 1) ≤ (i + 1) * M := by omega
  have hs := get_pointer_mkAt M t data 0 i (fun _ => hdef)
  have he := get_pointer_mkAt M t data 0 (i + 1) (fun _ => hdef2)
  have hpi : ptrVal M i = i * M - metaSize * i - (metaSize + 1) := by
    rw [ptrVal, if_neg (by omega)]
  have hpi1 : ptrVal M (i + 1)
      = (i + 1) * M - metaSize * (i + 1) - (metaSize + 1) := by
    rw [ptrVal, if_neg (by omega)]
  have hse : ptrVal M i ≤ ptrVal M (i + 1) := by omega
  have hdiff : ptrVal M (i + 1) - ptrVal M i = M - metaSize := by omega
  refine ⟨get_pointer_mkAt M t data 0 0 (fun h0 => absurd rfl h0), ?_, ?_⟩
  · rw [hs, hpi]
  · intro hle
    have hch := chunk_eq_of (mkAt M t data 0) i (ptrVal M i) (ptrVal M (i + 1))
      hs he hse
    have hdata : (mkAt M t data 0).data = data := rfl
    rw [hdata] at hch
    rw [if_neg (by omega)] at hch
    refine ⟨(data.drop (ptrVal M i)).take (ptrVal M (i + 1) - ptrVal M i),
      hch, ?_⟩
    rw [List.length_take, List.length_drop, hdiff, hpi]

set_option maxRecDepth 8000 in
/-- C3 witness: the spec's scenario at index 2: offset
`2 * 250 - 8 * 2 - 9 = 475` and a 242-byte data slice
(`min (250 - 8) (1000 - 475) = 242`). -/
theorem C3_witness :
    ((Chunk.new 250 16 (List.replicate 1000 0)).get_pointer 0 = some 0 ∧
      (Chunk.new 250 16 (List.replicate 1000 0)).get_pointer 2 =
        some (2 * 250 - metaSize * 2 - (metaSize + 1)) ∧
      ∃ piece, (Chunk.new 250 16 (List.replicate 1000 0)).chunk (some 2) =
          some (some (piece, 2)) ∧
        piece.length = min (250 - metaSize)
          ((List.replicate 1000 0).length -
            (2 * 250 - metaSize * 2 - (metaSize + 1)))) ∧
    min (250 - metaSize)
      ((List.replicate 1000 0).length -
        (2 * 250 - metaSize * 2 - (metaSize + 1))) = 242 := by
  have h := C3_pointer_formula 250 16 (List.replicate 1000 0) 2 (by decide)
    (by decide)
  exact ⟨⟨h.1, h.2.1, h.2.2 (by decide)⟩, by decide⟩

/-- C4, claim as stated is false: on the empty payload the computed start
offset of chunk 0 equals `payload.len()` exactly, yet `chunk` returns an
empty slice (`Some`), not the no-more-chunks signal; consequently the
first `next` also yields a chunk, so exhaustion is not reached within
`payload.len() = 0` calls. -/
theorem C4_counterexample :
    (Chunk.new 17 16 ([] : List Nat)).get_pointer 0 =
      some (List.length ([] : List Nat)) ∧
    (Chunk.new 17 16 ([] : List Nat)).chunk (some 0) = some (some ([], 0)) ∧
    (Chunk.new 17 16 ([] : List Nat)).chunk (some 0) ≠ some none ∧
    (Chunk.new 17 16 ([] : List Nat)).next ≠ some none := by
  exact ⟨rfl, rfl, by decide, by decide⟩

/-- C4 (amended): for every payload on a well-configured chunker
(`M ≥ 2 * metaSize + 1`): sequential production terminates — fuel
`L + 3` reaches exhaustion, so at most `L + 2` chunks are yielded — and
the yielded indices are the consecutive naturals from 0 (in particular no
index is yielded twice); `chunk` returns the no-more-chunks signal at an
index exactly when that index's computed start offset strictly exceeds
`payload.len()`; in particular, at an index whose start offset equals
`payload.len()` exactly, `chunk` yields an empty slice at that index
rather than the no-more-chunks signal. -/
theorem C4_iteration (M t i s : Nat) (data : List Nat)
    (hM : 2 * metaSize + 1 ≤ M) :
    (∃ l, Chunk.produce (data.length + 3) (Chunk.new M t data) = some l ∧
      l.map Prod.snd = List.range' 0 l.length ∧
      (l.map Prod.snd).Nodup ∧
      l.length ≤ data.length + 2) ∧
    ((Chunk.new M t data).get_pointer i = some s →
      ((Chunk.new M t data).chunk (some i) = some none ↔ data.length < s)) ∧
    ((Chunk.new M t data).get_pointer i = some s → s = data.length →
      (Chunk.new M t data).chunk (some i) = some (some ([], i))) := by
  have hs := get_pointer_mkAt M t data 0 i
    (fun h0 => ptr_defined_of_hM M i hM h0)
  have he := get_pointer_mkAt M t data 0 (i + 1)
    (fun h0 => ptr_defined_of_hM M (i + 1) hM h0)
  have hch := chunk_eq_of (mkAt M t data 0) i (ptrVal M i) (ptrVal M (i + 1))
    hs he (ptrVal_le_succ M i hM)
  have hdata : (mkAt M t data 0).data = data := rfl
  rw [hdata] at hch
  refine ⟨?_, ?_, ?_⟩
  · obtain ⟨l, h1, -, h3, h4⟩ := produce_new M t data hM
    exact ⟨l, h1, h3, h3 ▸ List.nodup_range' .., h4⟩
  · intro hgp
    rw [← mkAt_zero M t data] at hgp ⊢
    have hps : ptrVal M i = s := by
      rw [hs] at hgp
      exact Option.some.inj hgp
    rw [hch, hps]
    by_cases hc : data.length < s
    · simp [hc]
    · simp [hc]
  · intro hgp hsl
    rw [← mkAt_zero M t data] at hgp ⊢
    have hps : ptrVal M i = s := by
      rw [hs] at hgp
      exact Option.some.inj hgp
    rw [hch, hps, if_neg (by omega), hsl, List.drop_length, List.take_nil]

/-- C4 witness: the empty payload with `M = 17`: the run terminates within
the stated fuel with distinct consecutive indices, the no-more-chunks
characterization holds at index 0 (start 0, not beyond the length 0), and
chunk 0 (whose start offset 0 equals the payload length) is an empty
slice. -/
theorem C4_witness :
    (∃ l, Chunk.produce (List.length ([] : List Nat) + 3)
        (Chunk.new 17 16 ([] : List Nat)) = some l ∧
      l.map Prod.snd = List.range' 0 l.length ∧
      (l.map Prod.snd).Nodup ∧
      l.length ≤ List.length ([] : List Nat) + 2) ∧
    ((Chunk.new 17 16 ([] : List Nat)).chunk (some 0) = some none ↔
      List.length ([] : List Nat) < 0) ∧
    (Chunk.new 17 16 ([] : List Nat)).chunk (some 0) = some (some ([], 0)) := by
  have h := C4_iteration 17 16 0 0 [] (by decide)
  exact ⟨h.1, h.2.1 rfl, h.2.2 rfl rfl⟩

/-- C10, claim as stated is false: `max_frame_size = 10` exceeds
`header_size = metaSize + 1 = 9`, yet `get_pointer 1` underflows
(`1 * 10 - 8 * 1 - 9` would be negative) and `chunk (some 1)` aborts. -/
theorem C10_counterexample :
    metaSize + 1 < 10 ∧
    (Chunk.new 10 16 (List.replicate 5 0)).get_pointer 1 = none ∧
    (Chunk.new 10 16 (List.replicate 5 0)).chunk (some 1) = none :=
  ⟨by decide, rfl, rfl⟩

/-- C10 (amended): under the stronger precondition
`max_frame_size ≥ metaSize + header_size = 2 * metaSize + 1`, every
`get_pointer` subtraction is underflow-free (a defined offset is
produced for every index) and `chunk` never aborts, for every explicit
or cursor-resolved counter. -/
theorem C10_well_defined (M t i : Nat) (data : List Nat) (ctr : Option Nat)
    (hM : 2 * metaSize + 1 ≤ M) :
    (∃ v, (Chunk.new M t data).get_pointer i = some v) ∧
    (∃ r, (Chunk.new M t data).chunk ctr = some r) := by
  rw [← mkAt_zero M t data]
  constructor
  · exact ⟨ptrVal M i, get_pointer_mkAt M t data 0 i
      (fun h0 => ptr_defined_of_hM M i hM h0)⟩
  · have hk : (mkAt M t data 0).chunk ctr
        = (mkAt M t data 0).chunk (some (ctr.getD 0)) := by
      cases ctr <;> rfl
    rw [hk]
    have hs := get_pointer_mkAt M t data 0 (ctr.getD 0)
      (fun h0 => ptr_defined_of_hM M _ hM h0)
    have he := get_pointer_mkAt M t data 0 (ctr.getD 0 + 1)
      (fun h0 => ptr_defined_of_hM M _ hM h0)
    have hch := chunk_eq_of (mkAt M t data 0) (ctr.getD 0) _ _ hs he
      (ptrVal_le_succ M _ hM)
    rw [hch]
    by_cases hc : (mkAt M t data 0).data.length < ptrVal M (ctr.getD 0)
    · exact ⟨none, by rw [if_pos hc]⟩
    · exact ⟨_, by rw [if_neg hc]⟩

/-- C10 witness: a well-configured chunker (`M = 17`) on a 3-byte payload,
probed at an out-of-range index and at an explicit counter. -/
theorem C10_witness :
    (∃ v, (Chunk.new 17 16 [1, 2, 3]).get_pointer 5 = some v) ∧
    (∃ r, (Chunk.new 17 16 [1, 2, 3]).chunk (some 3) = some r) :=
  C10_well_defined 17 16 5 [1, 2, 3] (some 3) (by decide)
